import Mathlib

set_option linter.unusedSectionVars false
set_option linter.unusedVariables false

/-! Shallow embedding of the twittov Markov text generator.

The source consists of `util.py` (the ngram windower `ingrams`) and
`twittov.py` (the `markov` model builder and the `TweetList.generate_text`
random-walk generator).  Tokens are modelled by an arbitrary type with
decidable equality; Python dicts keyed by token windows become association
lists, Python sets become duplicate-free lists grown by `setInsert`, and the
`random.sample` calls become an injected oracle `rnd` supplying an index at
each sampling step. -/

namespace Twittov

variable {α : Type} [DecidableEq α]

/-- Window: an ordered tuple of consecutive tokens (a Python tuple used as a
dict key or as a head marker). -/
abbrev Window (α : Type) : Type := List α

/-- Frequency mapping: association list from windows to the set
(duplicate-free list) of observed successor tokens, modelling the Python dict
`distribution`. -/
abbrev FreqDist (α : Type) : Type := List (Window α × List α)

/-- Head set: set of windows eligible to start a generated sequence. -/
abbrev Heads (α : Type) : Type := List (Window α)

/-- Python `s.add(x)` on the list-as-set representation. -/
def setInsert (s : List α) (x : α) : List α := if x ∈ s then s else s ++ [x]

/-- Python `k in d` combined with `d[k]` on the association list: the
successor set stored under key `k`, if present. -/
def distLookup (d : FreqDist α) (k : Window α) : Option (List α) :=
  match d with
  | [] => none
  | kv :: rest => if kv.1 = k then some kv.2 else distLookup rest k

/-- Python dict update of twittov.py lines 97-100: `d[k] = set([v])` when `k`
is absent, `d[k].add(v)` when present. -/
def distInsert (d : FreqDist α) (k : Window α) (v : α) : FreqDist α :=
  match d with
  | [] => [(k, [v])]
  | kv :: rest =>
    if kv.1 = k then (kv.1, setInsert kv.2 v) :: rest
    else kv :: distInsert rest k v

/-- Main loop of `ingrams` (util.py lines 49-52): append the next item to the
history, yield the window, drop the oldest token. -/
def ingramsLoop (history : List α) : List α → List (List α)
  | [] => []
  | item :: rest =>
    (history ++ [item]) :: ingramsLoop ((history ++ [item]).drop 1) rest

/-- Python `ingrams(sequence, n)` without padding (the only form the model
builder uses).  The priming loop (util.py lines 45-48) consumes the first
`n-1` items; if the sequence is shorter, the StopIteration silently ends the
generator, so the result is empty. -/
def ingrams (sequence : List α) (n : Nat) : List (List α) :=
  if sequence.length < n - 1 then []
  else ingramsLoop (sequence.take (n - 1)) (sequence.drop (n - 1))

/-- Body of the `for ngram in ingrams(sequence, order+1)` loop of `markov`
(twittov.py lines 93-100): split the ngram into `ngram[:-1]` and `ngram[-1]`
and record the transition.  Every ngram produced there has length
`order+1 ≥ 1`, so the `none` branch is unreachable. -/
def markovStep (d : FreqDist α) (ngram : List α) : FreqDist α :=
  match ngram.getLast? with
  | none => d
  | some suffix => distInsert d ngram.dropLast suffix

/-- Python `markov(sequence, order, distribution, heads)` on the path where
both accumulators are supplied (the only way `_generate_distribution` calls
it).  Too-short sequences leave both accumulators unchanged (twittov.py
lines 82-84); otherwise the first window is added to the head set
(line 91) and every transition of the sequence is recorded (lines 93-100). -/
def markov (sequence : List α) (order : Nat) (d : FreqDist α) (heads : Heads α) :
    FreqDist α × Heads α :=
  if sequence.length < order + 1 then (d, heads)
  else ((ingrams sequence (order + 1)).foldl markovStep d,
        setInsert heads (sequence.take order))

/-- Uncaught Python exception raised by `markov` when its `distribution`
argument is left at the default. -/
inductive PyError : Type
  | typeError : PyError
deriving DecidableEq

/-- Python `markov` with the optional accumulators modelled explicitly.  On a
too-short sequence the bare `return` of line 84 yields Python `None`,
modelled as `Except.ok none`.  Otherwise: line 87 of twittov.py assigns the
fresh dict to a misspelled local name (`distributon`), so a `distribution`
left at its default `None` is never replaced; the first loop iteration
(which always runs, since the sequence has at least `order+1` tokens)
evaluates `prefix not in distribution` against `None` and raises an uncaught
`TypeError`.  With a caller-supplied mapping the function behaves as
`markov`. -/
def markovPy (sequence : List α) (order : Nat) (d : Option (FreqDist α))
    (heads : Option (Heads α)) : Except PyError (Option (FreqDist α × Heads α)) :=
  if sequence.length < order + 1 then .ok none
  else
    match d with
    | none => .error .typeError
    | some d0 => .ok (some (markov sequence order d0 (heads.getD [])))

/-- Update step of `_generate_distribution` (twittov.py line 200): a single
`markov` call threading the shared accumulators. -/
def mstep (order : Nat) (dh : FreqDist α × Heads α) (tweet : List α) :
    FreqDist α × Heads α :=
  markov tweet order dh.1 dh.2

/-- Python `TweetList._generate_distribution` (twittov.py lines 186-202):
fold `markov` over the corpus, starting from an empty mapping and an empty
head set.  Corpus items are taken as already-tokenised sequences; the
source's tokenisation (character mode versus `tweet.split()`, line 199)
happens just before this point. -/
def generate_distribution (tweets : List (List α)) (order : Nat) :
    FreqDist α × Heads α :=
  tweets.foldl (mstep order) ([], [])

/-- Failure of a generate call.  `valueError` models the uncaught
`ValueError` that `random.sample` raises on an empty population.
`emptyCorpusModel` is modelled from the spec: the named `EmptyCorpusModel`
failure that spec section 7 mandates when the head set is empty; no such
named error exists in the source. -/
inductive GenError : Type
  | valueError : GenError
  | emptyCorpusModel : GenError
deriving DecidableEq

/-- Python `random.sample(l, 1)[0]` driven by an oracle index: some element
of `l` when `l` is non-empty, `none` (the error case) when `l` is empty. -/
def pick (l : List α) (i : Nat) : Option α := l.get? (i % l.length)

/-- Python slice `text[-order:]` (twittov.py line 170): the last `order`
elements, except that slicing from `-0` returns the whole list. -/
def pyTailSlice (l : List α) (order : Nat) : List α :=
  if order = 0 then l else l.drop (l.length - order)

/-- Main loop of `generate_text` (twittov.py lines 166-177).  While the text
is shorter than `length`: if the current window is a mapping key, append one
sampled successor and slide the window; otherwise restart from a sampled
head, preceded in character mode (`split_words = true`) by one separator
token.  `fuel` bounds the number of iterations (the Python loop can diverge
for degenerate models) and `k` numbers the sampling calls for the oracle;
the result is `none` on fuel exhaustion or on a failed mid-loop sample. -/
def genLoop (d : FreqDist α) (heads : Heads α) (order length : Nat)
    (split_words : Bool) (sep : α) (rnd : Nat → Nat) :
    Nat → Nat → List α → Window α → Option (List α)
  | 0, _, text, _ => if text.length < length then none else some text
  | fuel + 1, k, text, pre =>
    if text.length < length then
      match distLookup d pre with
      | some succs =>
        match pick succs (rnd k) with
        | none => none
        | some suffix =>
          genLoop d heads order length split_words sep rnd fuel (k + 1)
            (text ++ [suffix]) (pyTailSlice (text ++ [suffix]) order)
      | none =>
        match pick heads (rnd k) with
        | none => none
        | some h =>
          genLoop d heads order length split_words sep rnd fuel (k + 1)
            (text ++ (if split_words then [sep] else []) ++ h) h
    else some text

/-- Python `TweetList.generate_text` (twittov.py lines 161-177) up to but
not including the final join: build the model, sample the initial head (an
empty head set makes `random.sample` raise `ValueError`), then run the walk
starting from the head's tokens.  Returns the internal token list `text` at
loop exit. -/
def generateTokens (tweets : List (List α)) (order length : Nat)
    (split_words : Bool) (sep : α) (rnd : Nat → Nat) (fuel : Nat) :
    Option (Except GenError (List α)) :=
  match pick (generate_distribution tweets order).2 (rnd 0) with
  | none => some (.error .valueError)
  | some h =>
    (genLoop (generate_distribution tweets order).1
        (generate_distribution tweets order).2 order length split_words sep rnd
        fuel 1 h h).map .ok

/-- Python `TweetList.generate_text` including the final join (twittov.py
lines 179-184), for string tokens: character mode joins with the empty
separator, word mode with a single space. -/
def generate_text (tweets : List (List String)) (order length : Nat)
    (split_words : Bool) (rnd : Nat → Nat) (fuel : Nat) :
    Option (Except GenError String) :=
  (generateTokens tweets order length split_words " " rnd fuel).map
    (Except.map (fun text =>
      String.intercalate (if split_words then "" else " ") text))

/-- Invariant: every key of the frequency mapping stores a non-empty
successor set. -/
def DistWF (d : FreqDist α) : Prop := ∀ kv ∈ d, kv.2 ≠ []

lemma mem_setInsert {s : List α} {x y : α} :
    y ∈ setInsert s x ↔ y ∈ s ∨ y = x := by
  by_cases hx : x ∈ s
  · simp only [setInsert, if_pos hx]
    exact ⟨Or.inl, fun h => h.elim id (fun e => e ▸ hx)⟩
  · simp [setInsert, if_neg hx]

lemma setInsert_self_mem (s : List α) (x : α) : x ∈ setInsert s x :=
  mem_setInsert.2 (Or.inr rfl)

lemma setInsert_mem_of_mem {s : List α} {y : α} (x : α) (h : y ∈ s) :
    y ∈ setInsert s x :=
  mem_setInsert.2 (Or.inl h)

lemma setInsert_ne_nil (s : List α) (x : α) : setInsert s x ≠ [] := by
  by_cases hx : x ∈ s
  · simp only [setInsert, if_pos hx]
    exact List.ne_nil_of_mem hx
  · simp [setInsert, if_neg hx]

lemma distLookup_distInsert_self (d : FreqDist α) (k : Window α) (v : α) :
    ∃ vs, distLookup (distInsert d k v) k = some vs ∧ v ∈ vs := by
  induction d with
  | nil => exact ⟨[v], by simp [distInsert, distLookup], by simp⟩
  | cons kv rest ih =>
    by_cases hk : kv.1 = k
    · refine ⟨setInsert kv.2 v, ?_, setInsert_self_mem _ _⟩
      simp [distInsert, distLookup, hk]
    · obtain ⟨vs, hvs, hv⟩ := ih
      exact ⟨vs, by simp [distInsert, distLookup, hk, hvs], hv⟩

lemma distInsert_preserve {d : FreqDist α} {k2 : Window α} {vs : List α}
    {v2 : α} (k : Window α) (v : α) (h : distLookup d k2 = some vs)
    (hv : v2 ∈ vs) :
    ∃ vs2, distLookup (distInsert d k v) k2 = some vs2 ∧ v2 ∈ vs2 := by
  induction d with
  | nil => simp [distLookup] at h
  | cons kv rest ih =>
    by_cases hk : kv.1 = k
    · rw [distInsert, if_pos hk]
      by_cases hk2 : kv.1 = k2
      · rw [distLookup, if_pos hk2] at h
        have hvs : kv.2 = vs := Option.some.inj h
        refine ⟨setInsert kv.2 v, ?_, setInsert_mem_of_mem _ (by rw [hvs]; exact hv)⟩
        rw [distLookup]
        simp [hk2]
      · rw [distLookup, if_neg hk2] at h
        refine ⟨vs, ?_, hv⟩
        rw [distLookup]
        simp [hk2, h]
    · rw [distInsert, if_neg hk]
      by_cases hk2 : kv.1 = k2
      · rw [distLookup, if_pos hk2] at h
        exact ⟨kv.2, by rw [distLookup, if_pos hk2], by rw [Option.some.inj h]; exact hv⟩
      · rw [distLookup, if_neg hk2] at h
        obtain ⟨vs2, hvs2, hv2⟩ := ih h
        refine ⟨vs2, ?_, hv2⟩
        rw [distLookup, if_neg hk2]
        exact hvs2

lemma distInsert_wf {d : FreqDist α} (k : Window α) (v : α) (h : DistWF d) :
    DistWF (distInsert d k v) := by
  induction d with
  | nil =>
    intro kv hkv
    simp only [distInsert, List.mem_singleton] at hkv
    simp [hkv]
  | cons kv0 rest ih =>
    have hrest : DistWF rest := fun kv hkv => h kv (List.mem_cons_of_mem _ hkv)
    by_cases hk : kv0.1 = k
    · intro kv hkv
      rw [distInsert] at hkv
      simp only [if_pos hk, List.mem_cons] at hkv
      rcases hkv with hkv | hkv
      · rw [hkv]
        exact setInsert_ne_nil _ _
      · exact hrest kv hkv
    · intro kv hkv
      rw [distInsert] at hkv
      simp only [if_neg hk, List.mem_cons] at hkv
      rcases hkv with hkv | hkv
      · exact h kv (hkv ▸ List.mem_cons_self _ _)
      · exact ih hrest kv hkv

lemma markovStep_preserve {d : FreqDist α} {k : Window α} {vs : List α}
    {v : α} (g : List α) (h : distLookup d k = some vs) (hv : v ∈ vs) :
    ∃ vs2, distLookup (markovStep d g) k = some vs2 ∧ v ∈ vs2 := by
  rw [markovStep]
  match hg : g.getLast? with
  | none => exact ⟨vs, h, hv⟩
  | some suffix => exact distInsert_preserve _ _ h hv

lemma markovStep_wf {d : FreqDist α} (g : List α) (h : DistWF d) :
    DistWF (markovStep d g) := by
  rw [markovStep]
  match hg : g.getLast? with
  | none => exact h
  | some suffix => exact distInsert_wf _ _ h

lemma foldl_markovStep_preserve {d : FreqDist α} {k : Window α} {vs : List α}
    {v : α} (grams : List (List α)) (h : distLookup d k = some vs)
    (hv : v ∈ vs) :
    ∃ vs2, distLookup (grams.foldl markovStep d) k = some vs2 ∧ v ∈ vs2 := by
  induction grams generalizing d vs with
  | nil => exact ⟨vs, h, hv⟩
  | cons g grams ih =>
    obtain ⟨vs1, h1, hv1⟩ := markovStep_preserve g h hv
    exact ih h1 hv1

lemma foldl_markovStep_wf {d : FreqDist α} (grams : List (List α))
    (h : DistWF d) : DistWF (grams.foldl markovStep d) := by
  induction grams generalizing d with
  | nil => exact h
  | cons g grams ih => exact ih (markovStep_wf g h)

lemma foldl_markovStep_mem {grams : List (List α)} {g : List α} {v : α}
    (hg : g ∈ grams) (hv : g.getLast? = some v) (d : FreqDist α) :
    ∃ vs, distLookup (grams.foldl markovStep d) g.dropLast = some vs ∧
      v ∈ vs := by
  induction grams generalizing d with
  | nil => simp at hg
  | cons a grams ih =>
    rcases List.mem_cons.1 hg with hga | hga
    · subst hga
      obtain ⟨vs, hvs, hmem⟩ := distLookup_distInsert_self d g.dropLast v
      rw [List.foldl_cons]
      have hstep : markovStep d g = distInsert d g.dropLast v := by
        rw [markovStep, hv]
      rw [hstep]
      exact foldl_markovStep_preserve grams hvs hmem
    · exact ih hga _

lemma ingramsLoop_eq (rest : List α) : ∀ history : List α,
    ingramsLoop history rest =
      (List.range rest.length).map
        (fun i => ((history ++ rest).drop i).take (history.length + 1)) := by
  induction rest with
  | nil => intro history; simp [ingramsLoop]
  | cons item rest ih =>
    intro history
    rw [ingramsLoop, ih ((history ++ [item]).drop 1)]
    rw [List.length_cons, List.range_succ_eq_map, List.map_cons, List.map_map]
    have hassoc : (history ++ [item]) ++ rest = history ++ item :: rest := by simp
    congr 1
    · rw [List.drop_zero, List.take_append_eq_append_take]
      simp
    · apply List.map_congr_left
      intro i hi
      simp only [Function.comp_apply]
      have h1 : (history ++ [item]).drop 1 ++ rest = (history ++ item :: rest).drop 1 := by
        rw [← hassoc]
        exact (@List.drop_append_of_le_length α (history ++ [item]) rest 1 (by simp)).symm
      have h2 : ((history ++ [item]).drop 1).length = history.length := by simp
      rw [h1, h2, List.drop_drop, Nat.add_comm 1 i]

lemma ingrams_eq (S : List α) (n : Nat) (hn : 1 ≤ n) :
    ingrams S n =
      (List.range (S.length + 1 - n)).map (fun i => (S.drop i).take n) := by
  rw [ingrams]
  by_cases h : S.length < n - 1
  · rw [if_pos h]
    have h0 : S.length + 1 - n = 0 := by omega
    rw [h0]
    simp
  · rw [if_neg h]
    rw [ingramsLoop_eq, List.take_append_drop]
    have hlt : (S.take (n - 1)).length = n - 1 := by
      rw [List.length_take]; omega
    have hlen : (S.drop (n - 1)).length = S.length + 1 - n := by
      rw [List.length_drop]; omega
    rw [hlt, hlen]
    have hn1 : n - 1 + 1 = n := by omega
    rw [hn1]

/-- C5: for every finite token sequence `S` and every `n` with
`1 ≤ n ≤ len S`, the windower produces exactly `len S - n + 1` windows, each
of length `n`, the `i`-th being the contiguous slice starting at position
`i` (so they appear in order of increasing `i`); for `n > len S` it produces
the empty sequence. -/
theorem claim5_windower (S : List α) (n : Nat) (hn : 1 ≤ n) :
    (ingrams S n).length = S.length + 1 - n ∧
    (∀ i, ∀ hi : i < (ingrams S n).length,
      (ingrams S n).get ⟨i, hi⟩ = (S.drop i).take n ∧
      ((ingrams S n).get ⟨i, hi⟩).length = n) ∧
    (S.length < n → ingrams S n = []) := by
  have he := ingrams_eq S n hn
  have hlen : (ingrams S n).length = S.length + 1 - n := by
    rw [he, List.length_map, List.length_range]
  refine ⟨hlen, ?_, ?_⟩
  · intro i hi
    have hi2 : i < S.length + 1 - n := hlen ▸ hi
    have hopt : (ingrams S n)[i]? = some ((S.drop i).take n) := by
      rw [he, List.getElem?_map, List.getElem?_range hi2]
      rfl
    have hget : (ingrams S n).get ⟨i, hi⟩ = (S.drop i).take n := by
      rw [List.get_eq_getElem]
      have := List.getElem?_eq_getElem hi
      rw [hopt] at this
      exact (Option.some.inj this).symm
    refine ⟨hget, ?_⟩
    rw [hget, List.length_take, List.length_drop]
    omega
  · intro hS
    rw [he]
    have h0 : S.length + 1 - n = 0 := by omega
    rw [h0]
    simp

/-- Witness for C5 at the example of spec section 8. -/
theorem claim5_windower_witness :
    (ingrams [1, 2, 3, 4, 5] 3).length = [1, 2, 3, 4, 5].length + 1 - 3 ∧
    (∀ i, ∀ hi : i < (ingrams [1, 2, 3, 4, 5] 3).length,
      (ingrams [1, 2, 3, 4, 5] 3).get ⟨i, hi⟩ = ([1, 2, 3, 4, 5].drop i).take 3 ∧
      ((ingrams [1, 2, 3, 4, 5] 3).get ⟨i, hi⟩).length = 3) ∧
    ([1, 2, 3, 4, 5].length < 3 → ingrams [1, 2, 3, 4, 5] 3 = []) :=
  claim5_windower [1, 2, 3, 4, 5] 3 (by decide)

lemma take_succ_eq_concat (l : List α) (n : Nat) (h : n < l.length) :
    l.take (n + 1) = l.take n ++ [l.get ⟨n, h⟩] := by
  rw [List.take_succ, List.getElem?_eq_getElem h]
  simp [List.get_eq_getElem]

lemma markov_short (S : List α) (order : Nat) (d : FreqDist α)
    (heads : Heads α) (h : S.length < order + 1) :
    markov S order d heads = (d, heads) := by
  rw [markov, if_pos h]

lemma markov_coverage (S : List α) (order : Nat) (d : FreqDist α)
    (heads : Heads α) (hlen : order + 1 ≤ S.length) (i : Nat)
    (hi : i + order < S.length) :
    ∃ vs, distLookup (markov S order d heads).1 ((S.drop i).take order) = some vs ∧
      S.get ⟨i + order, hi⟩ ∈ vs := by
  rw [markov, if_neg (by omega)]
  have hio : order < (S.drop i).length := by rw [List.length_drop]; omega
  have hgdecomp : (S.drop i).take (order + 1) =
      (S.drop i).take order ++ [(S.drop i).get ⟨order, hio⟩] :=
    take_succ_eq_concat _ _ hio
  have hgetdrop : (S.drop i).get ⟨order, hio⟩ = S.get ⟨i + order, hi⟩ := by
    rw [List.get_eq_getElem, List.get_eq_getElem]
    exact List.getElem_drop S
  have hmem : (S.drop i).take (order + 1) ∈ ingrams S (order + 1) := by
    rw [ingrams_eq S (order + 1) (by omega)]
    exact List.mem_map.2 ⟨i, List.mem_range.2 (by omega), rfl⟩
  have hlast : ((S.drop i).take (order + 1)).getLast? =
      some (S.get ⟨i + order, hi⟩) := by
    rw [hgdecomp, List.getLast?_concat, hgetdrop]
  have hdrop : ((S.drop i).take (order + 1)).dropLast = (S.drop i).take order := by
    rw [hgdecomp, List.dropLast_concat]
  have hres := foldl_markovStep_mem hmem hlast d
  rw [hdrop] at hres
  exact hres

lemma markov_distMem {d : FreqDist α} {k : Window α} {vs : List α} {v : α}
    (S : List α) (order : Nat) (heads : Heads α)
    (h : distLookup d k = some vs) (hv : v ∈ vs) :
    ∃ vs2, distLookup (markov S order d heads).1 k = some vs2 ∧ v ∈ vs2 := by
  rw [markov]
  by_cases hs : S.length < order + 1
  · rw [if_pos hs]
    exact ⟨vs, h, hv⟩
  · rw [if_neg hs]
    exact foldl_markovStep_preserve _ h hv

lemma markov_wf {d : FreqDist α} (S : List α) (order : Nat) (heads : Heads α)
    (h : DistWF d) : DistWF (markov S order d heads).1 := by
  rw [markov]
  by_cases hs : S.length < order + 1
  · rw [if_pos hs]
    exact h
  · rw [if_neg hs]
    exact foldl_markovStep_wf _ h

lemma markov_headsMem {heads : Heads α} {h0 : Window α} (S : List α)
    (order : Nat) (d : FreqDist α) (hh : h0 ∈ heads) :
    h0 ∈ (markov S order d heads).2 := by
  rw [markov]
  by_cases hs : S.length < order + 1
  · rw [if_pos hs]
    exact hh
  · rw [if_neg hs]
    exact setInsert_mem_of_mem _ hh

lemma markov_head_self (S : List α) (order : Nat) (d : FreqDist α)
    (heads : Heads α) (hlen : order + 1 ≤ S.length) :
    S.take order ∈ (markov S order d heads).2 := by
  rw [markov, if_neg (by omega)]
  exact setInsert_self_mem _ _

lemma markov_heads_len {heads : Heads α} (S : List α) (order : Nat)
    (d : FreqDist α) (hh : ∀ h0 ∈ heads, h0.length = order) :
    ∀ h0 ∈ (markov S order d heads).2, h0.length = order := by
  rw [markov]
  by_cases hs : S.length < order + 1
  · rw [if_pos hs]
    exact hh
  · rw [if_neg hs]
    intro h0 hmem
    rcases mem_setInsert.1 hmem with hmem | hmem
    · exact hh h0 hmem
    · rw [hmem, List.length_take]
      omega

lemma foldl_mstep_distMem {order : Nat} {k : Window α} {vs : List α} {v : α}
    (tweets : List (List α)) (dh : FreqDist α × Heads α)
    (h : distLookup dh.1 k = some vs) (hv : v ∈ vs) :
    ∃ vs2, distLookup (tweets.foldl (mstep order) dh).1 k = some vs2 ∧
      v ∈ vs2 := by
  induction tweets generalizing dh vs with
  | nil => exact ⟨vs, h, hv⟩
  | cons t ts ih =>
    rw [List.foldl_cons]
    obtain ⟨vs1, h1, hv1⟩ := markov_distMem t order dh.2 h hv
    exact ih (mstep order dh t) h1 hv1

lemma foldl_mstep_headsMem {order : Nat} {h0 : Window α}
    (tweets : List (List α)) (dh : FreqDist α × Heads α) (hh : h0 ∈ dh.2) :
    h0 ∈ (tweets.foldl (mstep order) dh).2 := by
  induction tweets generalizing dh with
  | nil => exact hh
  | cons t ts ih =>
    rw [List.foldl_cons]
    exact ih (mstep order dh t) (markov_headsMem t order dh.1 hh)

lemma foldl_mstep_wf {order : Nat} (tweets : List (List α))
    (dh : FreqDist α × Heads α) (h : DistWF dh.1) :
    DistWF (tweets.foldl (mstep order) dh).1 := by
  induction tweets generalizing dh with
  | nil => exact h
  | cons t ts ih =>
    rw [List.foldl_cons]
    exact ih (mstep order dh t) (markov_wf t order dh.2 h)

lemma foldl_mstep_heads_len {order : Nat} (tweets : List (List α))
    (dh : FreqDist α × Heads α) (hh : ∀ h0 ∈ dh.2, h0.length = order) :
    ∀ h0 ∈ (tweets.foldl (mstep order) dh).2, h0.length = order := by
  induction tweets generalizing dh with
  | nil => exact hh
  | cons t ts ih =>
    rw [List.foldl_cons]
    exact ih (mstep order dh t) (markov_heads_len t order dh.1 hh)

lemma foldl_mstep_coverage {order : Nat} {S : List α}
    (tweets : List (List α)) (dh : FreqDist α × Heads α) (hS : S ∈ tweets)
    (hlen : order + 1 ≤ S.length) (i : Nat) (hi : i + order < S.length) :
    ∃ vs, distLookup (tweets.foldl (mstep order) dh).1
        ((S.drop i).take order) = some vs ∧
      S.get ⟨i + order, hi⟩ ∈ vs := by
  induction tweets generalizing dh with
  | nil => simp at hS
  | cons t ts ih =>
    rw [List.foldl_cons]
    rcases List.mem_cons.1 hS with hts | hts
    · subst hts
      obtain ⟨vs, hvs, hv⟩ := markov_coverage S order dh.1 dh.2 hlen i hi
      exact foldl_mstep_distMem _ _ hvs hv
    · exact ih _ hts

lemma foldl_mstep_head {order : Nat} {S : List α} (tweets : List (List α))
    (dh : FreqDist α × Heads α) (hS : S ∈ tweets)
    (hlen : order + 1 ≤ S.length) :
    S.take order ∈ (tweets.foldl (mstep order) dh).2 := by
  induction tweets generalizing dh with
  | nil => simp at hS
  | cons t ts ih =>
    rw [List.foldl_cons]
    rcases List.mem_cons.1 hS with hts | hts
    · subst hts
      exact foldl_mstep_headsMem _ _ (markov_head_self S order dh.1 dh.2 hlen)
    · exact ih _ hts

/-- C6: after building the model, every transition actually present in a
corpus item is recorded: for every item `S` long enough and every position
`i`, the token at `i + order` belongs to the successor set stored under the
window that starts at `i`. -/
theorem claim6_model_coverage (tweets : List (List α)) (order : Nat)
    (S : List α) (hS : S ∈ tweets) (hlen : order + 1 ≤ S.length) (i : Nat)
    (hi : i + order < S.length) :
    ∃ vs, distLookup (generate_distribution tweets order).1
        ((S.drop i).take order) = some vs ∧
      S.get ⟨i + order, hi⟩ ∈ vs :=
  foldl_mstep_coverage tweets ([], []) hS hlen i hi

/-- Witness for C6 on a concrete corpus. -/
theorem claim6_model_coverage_witness :
    ∃ vs, distLookup (generate_distribution [[0, 1, 2]] 1).1
        (([0, 1, 2].drop 0).take 1) = some vs ∧
      [0, 1, 2].get ⟨0 + 1, by decide⟩ ∈ vs :=
  claim6_model_coverage [[0, 1, 2]] 1 [0, 1, 2] (by decide) (by decide) 0
    (by decide)

/-- C7: a corpus item shorter than `order + 1` contributes nothing: the
`markov` call processing it returns the frequency mapping and the head set
exactly as they were. -/
theorem claim7_skip_short (S : List α) (order : Nat) (d : FreqDist α)
    (heads : Heads α) (h : S.length < order + 1) :
    markov S order d heads = (d, heads) :=
  markov_short S order d heads h

/-- Witness for C7 on a concrete short item and non-trivial accumulators. -/
theorem claim7_skip_short_witness :
    markov [0] 2 [([5], [6])] [[7]] = ([([5], [6])], [[7]]) :=
  claim7_skip_short [0] 2 [([5], [6])] [[7]] (by decide)

/-- C8: every corpus item long enough to contribute to the model places its
first `order` tokens in the head set. -/
theorem claim8_head_membership (tweets : List (List α)) (order : Nat)
    (S : List α) (hS : S ∈ tweets) (hlen : order + 1 ≤ S.length) :
    S.take order ∈ (generate_distribution tweets order).2 :=
  foldl_mstep_head tweets ([], []) hS hlen

/-- Witness for C8 on a concrete corpus. -/
theorem claim8_head_membership_witness :
    [0, 1].take 1 ∈ (generate_distribution [[0, 1]] 1).2 :=
  claim8_head_membership [[0, 1]] 1 [0, 1] (by decide) (by decide)

/-- C9: every key of the frequency mapping always stores a non-empty
successor set: a single dict update inserts a key only together with a
successor and never shrinks an existing successor set, each `markov` call
preserves the invariant, and the mapping built by `_generate_distribution`
satisfies it. -/
theorem claim9_nonempty_successors :
    (∀ (d : FreqDist α) (k : Window α) (v : α),
      DistWF d → DistWF (distInsert d k v)) ∧
    (∀ (d : FreqDist α) (k k2 : Window α) (v v2 : α) (vs : List α),
      distLookup d k2 = some vs → v2 ∈ vs →
      ∃ vs2, distLookup (distInsert d k v) k2 = some vs2 ∧ v2 ∈ vs2) ∧
    (∀ (S : List α) (order : Nat) (d : FreqDist α) (heads : Heads α),
      DistWF d → DistWF (markov S order d heads).1) ∧
    (∀ (tweets : List (List α)) (order : Nat),
      DistWF (generate_distribution tweets order).1) :=
  ⟨fun _ k v h => distInsert_wf k v h,
   fun _ k _ v _ _ h hv => distInsert_preserve k v h hv,
   fun S order _ heads h => markov_wf S order heads h,
   fun tweets order =>
     foldl_mstep_wf tweets ([], []) (fun kv hkv => absurd hkv (List.not_mem_nil kv))⟩

/-- Witness for C9 on concrete mappings. -/
theorem claim9_nonempty_successors_witness :
    DistWF (distInsert [([0], [1])] [0] 2) ∧
    DistWF (markov [0, 1, 2] 1 [([9], [9])] []).1 :=
  ⟨(claim9_nonempty_successors (α := Nat)).1 [([0], [1])] [0] 2
     (by simp [DistWF]),
   (claim9_nonempty_successors (α := Nat)).2.2.1 [0, 1, 2] 1 [([9], [9])] []
     (by simp [DistWF])⟩

lemma pick_mem {l : List α} {i : Nat} {x : α} (h : pick l i = some x) :
    x ∈ l := by
  rw [pick] at h
  exact List.get?_mem h

lemma pick_isSome {l : List α} (h : l ≠ []) (i : Nat) :
    ∃ x, pick l i = some x ∧ x ∈ l := by
  have hlen : 0 < l.length := List.length_pos.2 h
  have hmod : i % l.length < l.length := Nat.mod_lt _ hlen
  refine ⟨l.get ⟨i % l.length, hmod⟩, ?_, List.get_mem l _ _⟩
  rw [pick]
  exact List.get?_eq_get hmod

lemma gd_heads_len (tweets : List (List α)) (order : Nat) :
    ∀ h0 ∈ (generate_distribution tweets order).2, h0.length = order :=
  foldl_mstep_heads_len tweets ([], [])
    (fun h0 hh => absurd hh (List.not_mem_nil h0))

lemma foldl_mstep_id {order : Nat} (tweets : List (List α))
    (dh : FreqDist α × Heads α)
    (hshort : ∀ S ∈ tweets, S.length < order + 1) :
    tweets.foldl (mstep order) dh = dh := by
  induction tweets generalizing dh with
  | nil => rfl
  | cons t ts ih =>
    rw [List.foldl_cons]
    have hstep : mstep order dh t = dh := by
      rw [mstep, markov_short t order dh.1 dh.2 (hshort t (List.mem_cons_self t ts))]
    rw [hstep]
    exact ih dh (fun S hS => hshort S (List.mem_cons_of_mem t hS))

lemma genLoop_bound {d : FreqDist α} {heads : Heads α} {order length : Nat}
    {split_words : Bool} {sep : α} {rnd : Nat → Nat}
    (hheads : ∀ h0 ∈ heads, h0.length = order) (horder : 1 ≤ order)
    (hL : 1 ≤ length) :
    ∀ (fuel k : Nat) (text : List α) (pre : Window α) (t : List α),
      (text.length < length ∨
        text.length ≤ length + order - 1 + (if split_words then 1 else 0)) →
      genLoop d heads order length split_words sep rnd fuel k text pre = some t →
      length ≤ t.length ∧
        t.length ≤ length + order - 1 + (if split_words then 1 else 0) := by
  have hb : (if split_words then 1 else 0) = 0 ∨
      (if split_words then 1 else 0) = 1 := by
    cases split_words <;> simp
  have hsep : ((if split_words then [sep] else []) : List α).length =
      (if split_words then 1 else 0) := by
    cases split_words <;> rfl
  intro fuel
  induction fuel with
  | zero =>
    intro k text pre t hentry hres
    rw [genLoop] at hres
    by_cases hlt : text.length < length
    · rw [if_pos hlt] at hres
      exact absurd hres (by simp)
    · rw [if_neg hlt] at hres
      obtain rfl : text = t := Option.some.inj hres
      exact ⟨by omega, by omega⟩
  | succ fuel ih =>
    intro k text pre t hentry hres
    rw [genLoop] at hres
    by_cases hlt : text.length < length
    · rw [if_pos hlt] at hres
      cases hdl : distLookup d pre with
      | some succs =>
        simp only [hdl] at hres
        cases hp : pick succs (rnd k) with
        | none =>
          simp only [hp] at hres
          exact Option.noConfusion hres
        | some suffix =>
          simp only [hp] at hres
          refine ih (k + 1) (text ++ [suffix]) _ t ?_ hres
          have hlen2 : (text ++ [suffix]).length = text.length + 1 := by simp
          rw [hlen2]
          omega
      | none =>
        simp only [hdl] at hres
        cases hp : pick heads (rnd k) with
        | none =>
          simp only [hp] at hres
          exact Option.noConfusion hres
        | some h0 =>
          simp only [hp] at hres
          have hlen0 : h0.length = order := hheads h0 (pick_mem hp)
          refine ih (k + 1) _ _ t ?_ hres
          have hlen2 : (text ++ (if split_words then [sep] else []) ++ h0).length =
              text.length + (if split_words then 1 else 0) + order := by
            rw [List.length_append, List.length_append, hsep, hlen0]
          rw [hlen2]
          omega
    · rw [if_neg hlt] at hres
      obtain rfl : text = t := Option.some.inj hres
      exact ⟨by omega, by omega⟩

/-- C1 as stated is false: in character mode (`split_words = true`) the
restart of twittov.py lines 172-177 appends the separator token and then the
`order` tokens of the sampled head, so one iteration can add `order + 1`
tokens and the loop can exit with `length = L + order`, one more than the
claimed maximum `L + order - 1`.  Concretely, corpus `[[0, 1, 2]]`, order 2,
target length 4, character mode: the internal token list is
`[0, 1, 2, 9, 0, 1]` of length 6 > 4 + 2 - 1. -/
theorem claim1_counterexample :
    generateTokens [[0, 1, 2]] 2 4 true 9 (fun _ => 0) 10 =
      some (.ok [0, 1, 2, 9, 0, 1]) ∧
    4 + 2 - 1 < ([0, 1, 2, 9, 0, 1] : List Nat).length :=
  ⟨by rfl, by decide⟩

/-- C1 (amended): whenever the generation loop exits with a token list `t`
(for order ≥ 1 and target length ≥ 1), `t` has at least `length` tokens, and
it exceeds `length` by at most `order - 1` tokens in word mode and by at
most `order` tokens in character mode (the separator token appended before a
restart accounts for the extra one). -/
theorem claim1_generator_length (tweets : List (List α)) (order length : Nat)
    (split_words : Bool) (sep : α) (rnd : Nat → Nat) (fuel : Nat)
    (t : List α) (horder : 1 ≤ order) (hL : 1 ≤ length)
    (hres : generateTokens tweets order length split_words sep rnd fuel =
      some (.ok t)) :
    length ≤ t.length ∧
      t.length ≤ length + order - 1 + (if split_words then 1 else 0) := by
  rw [generateTokens] at hres
  cases hp : pick (generate_distribution tweets order).2 (rnd 0) with
  | none => simp [hp] at hres
  | some h0 =>
    simp only [hp, Option.map_eq_some'] at hres
    obtain ⟨t0, hgen, hok⟩ := hres
    rw [Except.ok.inj hok] at hgen
    have hlen0 : h0.length = order :=
      gd_heads_len tweets order h0 (pick_mem hp)
    refine genLoop_bound (gd_heads_len tweets order) horder hL fuel 1 h0 h0 t
      ?_ hgen
    right
    have hb : (if split_words then 1 else 0) = 0 ∨
        (if split_words then 1 else 0) = 1 := by
      cases split_words <;> simp
    omega

/-- Witness for the amended C1 in word mode: the run exits with 5 tokens,
within the bounds 4 ≤ 5 ≤ 4 + 2 - 1. -/
theorem claim1_generator_length_witness :
    4 ≤ ([0, 1, 2, 0, 1] : List Nat).length ∧
      ([0, 1, 2, 0, 1] : List Nat).length ≤ 4 + 2 - 1 + (if false then 1 else 0) :=
  claim1_generator_length [[0, 1, 2]] 2 4 false 9 (fun _ => 0) 10
    [0, 1, 2, 0, 1] (by decide) (by decide) (by rfl)

/-- C2: whenever the current window is absent from the frequency mapping,
the iteration appends exactly the tokens of some member of the head set —
preceded, in character mode, by the one separator token — and continues the
walk from that head. -/
theorem claim2_restart_from_head (d : FreqDist α) (heads : Heads α)
    (order length fuel k : Nat) (split_words : Bool) (sep : α)
    (rnd : Nat → Nat) (text : List α) (pre : Window α)
    (hmiss : distLookup d pre = none) (hne : heads ≠ [])
    (hlen : text.length < length) :
    ∃ h0, h0 ∈ heads ∧
      genLoop d heads order length split_words sep rnd (fuel + 1) k text pre =
        genLoop d heads order length split_words sep rnd fuel (k + 1)
          (text ++ (if split_words then [sep] else []) ++ h0) h0 := by
  obtain ⟨h0, hp, hmem⟩ := pick_isSome hne (rnd k)
  refine ⟨h0, hmem, ?_⟩
  rw [genLoop, if_pos hlen]
  simp only [hmiss, hp]

/-- Witness for C2 on a concrete dead-end state. -/
theorem claim2_restart_from_head_witness :
    ∃ h0, h0 ∈ [[7]] ∧
      genLoop ([] : FreqDist Nat) [[7]] 1 3 false 9 (fun _ => 0) 4 0 [5] [5] =
        genLoop [] [[7]] 1 3 false 9 (fun _ => 0) 3 1
          ([5] ++ (if false then [9] else []) ++ h0) h0 :=
  claim2_restart_from_head [] [[7]] 1 3 3 0 false 9 (fun _ => 0) [5] [5]
    (by rfl) (by decide) (by decide)

/-- C3 as stated is false: with a corpus whose only item is shorter than
`order + 1` the head set is empty and the generate call does fail fatally,
but the failure is the uncaught `ValueError` raised by sampling the empty
head set, not a named `EmptyCorpusModel` error — no such error exists in the
code. -/
theorem claim3_counterexample :
    generateTokens [[0]] 2 5 false 9 (fun _ => 0) 10 =
      some (.error .valueError) ∧
    GenError.valueError ≠ GenError.emptyCorpusModel :=
  ⟨by rfl, by decide⟩

/-- C3 (amended): building over a corpus where every item has length
< order + 1 yields an empty head set, and a subsequent generate call fails
fatally — `random.sample` on the empty head set raises an uncaught
`ValueError` — producing no output; the failure is not a named
`EmptyCorpusModel` error. -/
theorem claim3_empty_model_failure (tweets : List (List α)) (order : Nat)
    (hshort : ∀ S ∈ tweets, S.length < order + 1) (length : Nat)
    (split_words : Bool) (sep : α) (rnd : Nat → Nat) (fuel : Nat) :
    (generate_distribution tweets order).2 = [] ∧
    generateTokens tweets order length split_words sep rnd fuel =
      some (.error .valueError) := by
  have hgd : generate_distribution tweets order = ([], []) :=
    foldl_mstep_id tweets ([], []) hshort
  constructor
  · rw [hgd]
  · rw [generateTokens, hgd]
    rfl

/-- Witness for the amended C3 on a concrete all-short corpus. -/
theorem claim3_empty_model_failure_witness :
    (generate_distribution [[0]] 2).2 = [] ∧
    generateTokens [[0]] 2 7 true 9 (fun _ => 0) 3 =
      some (.error .valueError) :=
  claim3_empty_model_failure [[0]] 2 (by decide) 7 true 9 (fun _ => 0) 3

/-- C4 as stated is false: the code performs no configuration validation.
With the non-positive order 0 the model is still built — the mapping gains
the key `[]` with both corpus tokens as successors and the head set gains
the empty window — and generation proceeds to produce output instead of an
`InvalidConfiguration` failure. -/
theorem claim4_counterexample :
    (generate_distribution [[0, 1]] 0).1 = [([], [0, 1])] ∧
    (generate_distribution [[0, 1]] 0).2 = [[]] ∧
    generateTokens [[0, 1]] 0 1 false 9 (fun _ => 0) 5 = some (.ok [0]) :=
  ⟨by rfl, by rfl, by rfl⟩

/-- C4 (amended): no `InvalidConfiguration` rejection exists in the generate
call: even for the non-positive order 0, model building proceeds — for any
corpus with a non-empty item, the head set receives the empty window and the
frequency mapping is non-empty. -/
theorem claim4_no_validation (tweets : List (List α)) (S : List α)
    (hS : S ∈ tweets) (hlen : 1 ≤ S.length) :
    [] ∈ (generate_distribution tweets 0).2 ∧
    (generate_distribution tweets 0).1 ≠ [] := by
  constructor
  · have hhead := @foldl_mstep_head α _ 0 S tweets ([], []) hS (by omega)
    simpa using hhead
  · obtain ⟨vs, hvs, _⟩ :=
      @foldl_mstep_coverage α _ 0 S tweets ([], []) hS (by omega) 0 (by omega)
    intro hnil
    rw [generate_distribution] at hnil
    rw [hnil] at hvs
    simp [distLookup] at hvs

/-- Witness for the amended C4 on a concrete corpus. -/
theorem claim4_no_validation_witness :
    [] ∈ (generate_distribution [[0, 1]] 0).2 ∧
    (generate_distribution [[0, 1]] 0).1 ≠ [] :=
  claim4_no_validation [[0, 1]] [0, 1] (by decide) (by decide)

/-- C10: calling `markov` with the `distribution` argument left at its
default `None` on any sequence long enough to enter the main loop raises an
uncaught `TypeError` instead of building a fresh mapping: line 87 of
twittov.py assigns the fresh dict to the misspelled local `distributon`, so
the membership test of line 97 runs against `None`. -/
theorem claim10_default_argument_bug (sequence : List α) (order : Nat)
    (heads : Option (Heads α)) (h : order + 1 ≤ sequence.length) :
    markovPy sequence order none heads = .error .typeError := by
  rw [markovPy, if_neg (by omega)]

/-- Witness for C10 on a concrete sequence. -/
theorem claim10_default_argument_bug_witness :
    markovPy [0, 1, 2] 1 none (some [[9]]) = .error .typeError :=
  claim10_default_argument_bug [0, 1, 2] 1 (some [[9]]) (by decide)

end Twittov
